import Mathlib

/-!
# simple-cache: a TTL key/value cache with an approximate memory cap

Shallow embedding of `cache.go` (package `simple_cache`).

* The Go map `map[string]Result` is an association list with unique keys
  (`AList`): lookup, insert-or-replace, delete, `len` and `range` are the map
  primitives the source uses.
* A value of type `interface{}` is `Option V`: `none` is the nil interface,
  `some v` a dynamic value `v`.
* Every method has a pointer receiver, so it is a function from the state
  before the call to its result and the state after it.  The mutex is not
  part of the sequential state.
* Every `time.Now().UnixNano()` and every `runtime.ReadMemStats` is a reading
  of the environment and is passed as an argument: `int64` nanoseconds for the
  clock, `uint64` bytes for `MemStats.Alloc`.  A method that reads the clock
  twice takes two readings.
* `int64` and `uint64` arithmetic wraps; it is written with explicit `%`.
* Clock readings run forward within a call: a reading taken inside a callee is
  not before the caller's own reading.  Theorems that need this say so.
* Size strings are Unicode text.  `strings.ToLower` maps every rune through
  `unicode.ToLower`; two runes outside ASCII have an ASCII lower case, U+212A
  KELVIN SIGN (`k`) and U+0130 (`i`), and they are mapped so.  Lengths and
  slices count characters where Go counts bytes: `SetMaxMemory` returns true
  only on a string that, lower-cased, is ASCII digits followed by two ASCII
  letters, and on such a string the two ways of counting cut at the same place;
  on every other string both return false.
-/

namespace simple_cache

/-! ## Machine integers and environment readings -/

/-- Two's complement reduction of an integer to the `int64` range. -/
def wrapInt64 (x : Int) : Int :=
  (x + 2 ^ 63) % 2 ^ 64 - 2 ^ 63

/-- Reduction of a natural number to the `uint64` range. -/
def wrapUint64 (x : Nat) : Nat :=
  x % 2 ^ 64

/-- Values of Go's `int64`; a `time.Duration` is one, counted in nanoseconds. -/
def isInt64 (x : Int) : Prop :=
  -(2 ^ 63) ≤ x ∧ x < 2 ^ 63

instance isInt64.decidable (x : Int) : Decidable (isInt64 x) :=
  inferInstanceAs (Decidable (-(2 ^ 63) ≤ x ∧ x < 2 ^ 63))

/-- Values of `time.Now().UnixNano()`: nanoseconds elapsed since the Unix epoch,
as an `int64`. -/
def isClock (now : Int) : Prop :=
  0 ≤ now ∧ now < 2 ^ 63

instance isClock.decidable (now : Int) : Decidable (isClock now) :=
  inferInstanceAs (Decidable (0 ≤ now ∧ now < 2 ^ 63))

/-! ## Data model -/

/-- Go declaration `type Result struct { value interface{}; expire int64 }`. -/
structure Result (V : Type) where
  value : Option V
  expire : Int
deriving DecidableEq

/-- The zero value of `Result`, which a map read yields for an absent key. -/
def Result.zero {V : Type} : Result V :=
  ⟨none, 0⟩

/-- The Go type `map[string]Result`. -/
abbrev GoMap (V : Type) : Type :=
  AList (fun _ : String => Result V)

/-- Go declaration `type SimpleCache struct { m; maxSize uint64; lock; orgMem uint64 }`. -/
structure SimpleCache (V : Type) where
  m : GoMap V
  maxSize : Nat
  orgMem : Nat
deriving DecidableEq

variable {V : Type}

deriving instance DecidableEq for Except

/-- The two-valued map read `val, ok := m[key]`. -/
def index (m : GoMap V) (key : String) : Result V × Bool :=
  match m.lookup key with
  | some r => (r, true)
  | none => (Result.zero, false)

/-! ## Library functions used by `SetMaxMemory` -/

/-- The rune U+212A KELVIN SIGN, whose lower case is the letter `k`. -/
def kelvinSign : Char :=
  Char.ofNat 0x212A

/-- The rune U+0130 LATIN CAPITAL LETTER I WITH DOT ABOVE, whose lower case in
`unicode.ToLower` is the letter `i`. -/
def capitalIWithDot : Char :=
  Char.ofNat 0x130

/-- Go function `unicode.ToLower`: `A`..`Z` become `a`..`z`, U+212A becomes `k` and
U+0130 becomes `i`.  These are all the runes whose lower case is an ASCII
character other than themselves; a rune outside ASCII other than these two has a
lower case outside ASCII too, which is no digit and no letter of a unit any more
than the rune itself, and it is kept as it is. -/
def unicodeToLower (c : Char) : Char :=
  if c = kelvinSign then 'k'
  else if c = capitalIWithDot then 'i'
  else c.toLower

/-- Go function `strings.ToLower`: every rune is mapped through `unicode.ToLower`. -/
def ToLower (s : String) : String :=
  ⟨s.data.map unicodeToLower⟩

/-- Go function `strings.HasSuffix`:
`len(s) >= len(suffix) && s[len(s)-len(suffix):] == suffix`. -/
def HasSuffix (s suffix : String) : Bool :=
  decide (suffix.data.length ≤ s.data.length) &&
    decide (s.data.drop (s.data.length - suffix.data.length) = suffix.data)

/-- A decimal digit, `'0' <= c && c <= '9'` (character codes 48 to 57). -/
def isDecimalDigit (c : Char) : Bool :=
  decide (48 ≤ c.toNat ∧ c.toNat ≤ 57)

/-- The digit loop of `strconv.ParseUint` in base 10, `n = n*10 + (c - '0')`;
`none` at the first character that is not a decimal digit. -/
def parseDigits : List Char → Nat → Option Nat
  | [], n => some n
  | c :: cs, n => if isDecimalDigit c then parseDigits cs (10 * n + (c.toNat - 48)) else none

/-- Go call `strconv.ParseUint(s, 10, 64)`; `none` stands for a non-nil `err`
(empty input, a character that is not a digit, or a value above `2^64 - 1`). -/
def ParseUint (s : String) : Option Nat :=
  if s.data = [] then none
  else
    match parseDigits s.data 0 with
    | some n => if n < 2 ^ 64 then some n else none
    | none => none

/-! ## The methods of `SimpleCache` -/

/-- Method `Size`: `ms.Alloc - s.orgMem` in `uint64`, for the reading
`alloc` of `ms.Alloc`. -/
def SimpleCache.Size (s : SimpleCache V) (alloc : Nat) : Nat × SimpleCache V :=
  (wrapUint64 (alloc + 2 ^ 64 - s.orgMem), s)

/-- Method `isMemFull`: `s.Size() > s.maxSize`. -/
def SimpleCache.isMemFull (s : SimpleCache V) (alloc : Nat) : Bool × SimpleCache V :=
  let (size, s1) := s.Size alloc
  if size > s1.maxSize then (true, s1) else (false, s1)

/-- Method `SetMaxMemory`. -/
def SimpleCache.SetMaxMemory (s : SimpleCache V) (size : String) : Bool × SimpleCache V :=
  if size.data.length ≤ 2 then (false, s)
  else
    let size := ToLower size
    match ParseUint ⟨size.data.take (size.data.length - 2)⟩ with
    | none => (false, s)
    | some num =>
      if HasSuffix size "kb" then
        (true, { s with maxSize := wrapUint64 (num * 1024) })
      else if HasSuffix size "mb" then
        (true, { s with maxSize := wrapUint64 (wrapUint64 (num * 1024) * 1024) })
      else if HasSuffix size "gb" then
        (true, { s with maxSize := wrapUint64 (wrapUint64 (wrapUint64 (num * 1024) * 1024) * 1024) })
      else (false, s)

/-- Method `Set`; `Except.error msg` is `panic(msg)`.  `alloc` is the reading of
`ms.Alloc` taken by `isMemFull`, `now` the reading of `time.Now()`, and
`time.Now().Add(expire).UnixNano()` is computed in `int64`. -/
def SimpleCache.Set (s : SimpleCache V) (key : String) (val : Option V) (expire : Int)
    (alloc : Nat) (now : Int) : Except String Unit × SimpleCache V :=
  let (full, s1) := s.isMemFull alloc
  if full then (Except.error "mem is full", s1)
  else (Except.ok (), { s1 with m := s1.m.insert key ⟨val, wrapInt64 (now + expire)⟩ })

/-- Method `Exists`; `now` is its reading of the clock. -/
def SimpleCache.Exists (s : SimpleCache V) (key : String) (now : Int) : Bool × SimpleCache V :=
  let (val, ok) := index s.m key
  if ok && decide (now > val.expire) then (false, s) else (ok, s)

/-- Method `Del`; `now` is the reading of the clock taken by `Exists`. -/
def SimpleCache.Del (s : SimpleCache V) (key : String) (now : Int) : Bool × SimpleCache V :=
  let (found, s1) := s.Exists key now
  if !found then (false, s1)
  else (true, { s1 with m := s1.m.erase key })

/-- Method `Get`; `now` is its own reading of the clock and `nowDel` the later
reading taken inside `Del` when the entry is found expired. -/
def SimpleCache.Get (s : SimpleCache V) (key : String) (now nowDel : Int) :
    (Option V × Bool) × SimpleCache V :=
  let (val, ok) := index s.m key
  if now > val.expire then
    let (_, s1) := s.Del key nowDel
    ((none, false), s1)
  else ((val.value, ok), s)

/-- Method `Flush`. -/
def SimpleCache.Flush (s : SimpleCache V) : Bool × SimpleCache V :=
  (true, { s with m := ∅ })

/-- Method `Keys`: `int64(len(s.m))`; `len` is a non-negative `int`, which the
conversion to `int64` leaves as it is. -/
def SimpleCache.Keys (s : SimpleCache V) : Int × SimpleCache V :=
  ((s.m.entries.length : Int), s)

/-- Method `deleteExpire`: one sweep.  `now` is the reading taken once before
the loop; `delNow k` is the reading taken inside the call `Del(k)` (every key is
visited at most once, and `Del(k)` touches no key but `k`). -/
def SimpleCache.deleteExpire (s : SimpleCache V) (now : Int) (delNow : String → Int) :
    SimpleCache V :=
  s.m.entries.foldl
    (fun acc e => if now > e.2.expire then (acc.Del e.1 (delNow e.1)).2 else acc) s

/-- Function `NewSimpleCache`; `alloc` is the reading of `ms.Alloc` stored as the
baseline.  The sweeper it starts runs `deleteExpire` every two seconds. -/
def NewSimpleCache (alloc : Nat) : SimpleCache V :=
  { m := ∅, maxSize := 0, orgMem := alloc }

/-! ## The size-spec format in the words of the specification -/

/-- The numeric part of a size string: everything before its last two characters. -/
def numOf (size : String) : List Char :=
  size.data.take (size.data.length - 2)

/-- The unit part of a size string: its last two characters. -/
def unitOf (size : String) : List Char :=
  size.data.drop (size.data.length - 2)

/-- The number a string of decimal digits denotes. -/
def decimalValue (cs : List Char) : Nat :=
  cs.foldl (fun n c => 10 * n + (c.toNat - 48)) 0

/-- The spellings of a unit `xb` in any letter case, for a lower-case letter `x`
given with its upper-case form `X`. -/
def spells (x X : Char) (u : List Char) : Bool :=
  decide (u = [x, 'b'] ∨ u = [x, 'B'] ∨ u = [X, 'b'] ∨ u = [X, 'B'])

/-- The unit is `kb`, in any letter case. -/
def isKB (u : List Char) : Bool :=
  spells 'k' 'K' u

/-- The unit is `mb`, in any letter case. -/
def isMB (u : List Char) : Bool :=
  spells 'm' 'M' u

/-- The unit is `gb`, in any letter case. -/
def isGB (u : List Char) : Bool :=
  spells 'g' 'G' u

/-- The unit is spelled with the Kelvin sign U+212A in the place of `k`. -/
def isKelvinB (u : List Char) : Bool :=
  decide (u = [kelvinSign, 'b'] ∨ u = [kelvinSign, 'B'])

/-- The unit is `kb` as the code reads it: in any letter case, the Kelvin sign
counting as a `k`. -/
def unitKB (u : List Char) : Bool :=
  isKB u || isKelvinB u

/-- A call of a method of the cache, together with the environment readings the
call takes. -/
inductive Call (V : Type) where
  | SetMaxMemory (size : String)
  | Set (key : String) (val : Option V) (expire : Int) (alloc : Nat) (now : Int)
  | Get (key : String) (now nowDel : Int)
  | Del (key : String) (now : Int)
  | Exists (key : String) (now : Int)
  | Flush
  | Keys
  | Size (alloc : Nat)
  | deleteExpire (now : Int) (delNow : String → Int)

/-- The cache after one call.  A `Set` that panics leaves the cache to a caller
that recovers, as the test does. -/
def step (s : SimpleCache V) : Call V → SimpleCache V
  | Call.SetMaxMemory size => (s.SetMaxMemory size).2
  | Call.Set key val expire alloc now => (s.Set key val expire alloc now).2
  | Call.Get key now nowDel => (s.Get key now nowDel).2
  | Call.Del key now => (s.Del key now).2
  | Call.Exists key now => (s.Exists key now).2
  | Call.Flush => s.Flush.2
  | Call.Keys => s.Keys.2
  | Call.Size alloc => (s.Size alloc).2
  | Call.deleteExpire now delNow => s.deleteExpire now delNow

/-- The cache after a sequence of calls, first call first. -/
def run (s : SimpleCache V) (calls : List (Call V)) : SimpleCache V :=
  calls.foldl step s

/-- The arguments and environment readings of one call of `Set`. -/
structure SetCall (V : Type) where
  key : String
  val : Option V
  expire : Int
  alloc : Nat
  now : Int

/-- A loop of `Set` calls, as in the test (`for ... { cache.Set(...) }`): the
first panic ends the loop. -/
def setAll (s : SimpleCache V) : List (SetCall V) → Except String Unit × SimpleCache V
  | [] => (Except.ok (), s)
  | c :: cs =>
    match s.Set c.key c.val c.expire c.alloc c.now with
    | (Except.ok _, s1) => setAll s1 cs
    | (Except.error msg, s1) => (Except.error msg, s1)

/-! ## Mutex and map events of the methods -/

/-- What a method does to the mutex `s.lock` and to the map `s.m`, in program
order. -/
inductive Event where
  | Lock
  | Unlock
  | MapRead
  | MapWrite
deriving DecidableEq

/-- Every map event of the sequence happens while the mutex is held; `held` tells
whether it is held at the start. -/
def lockHeld : Bool → List Event → Bool
  | _, [] => true
  | _, Event.Lock :: es => lockHeld true es
  | _, Event.Unlock :: es => lockHeld false es
  | held, Event.MapRead :: es => held && lockHeld held es
  | held, Event.MapWrite :: es => held && lockHeld held es

/-- Events of `Exists`: `s.m[key]` is read, the mutex is not taken. -/
def SimpleCache.ExistsEvents (_s : SimpleCache V) (_key : String) (_now : Int) : List Event :=
  [Event.MapRead]

/-- Events of `Del`: those of `Exists`, then `delete(s.m, key)` between `Lock`
and `Unlock` when the key was found. -/
def SimpleCache.DelEvents (s : SimpleCache V) (key : String) (now : Int) : List Event :=
  s.ExistsEvents key now ++
    (if !(s.Exists key now).1 then [] else [Event.Lock, Event.MapWrite, Event.Unlock])

/-- Events of `Get`: `s.m[key]` is read between `Lock` and `Unlock`, then `Del`
is called when the entry read is expired. -/
def SimpleCache.GetEvents (s : SimpleCache V) (key : String) (now nowDel : Int) : List Event :=
  [Event.Lock, Event.MapRead, Event.Unlock] ++
    (if now > (index s.m key).1.expire then s.DelEvents key nowDel else [])

/-- Events of `Set`: none when it panics, else the map write between `Lock` and
`Unlock`. -/
def SimpleCache.SetEvents (s : SimpleCache V) (alloc : Nat) : List Event :=
  if (s.isMemFull alloc).1 then [] else [Event.Lock, Event.MapWrite, Event.Unlock]

/-- Events of `Flush`: the map is replaced between `Lock` and `Unlock`. -/
def SimpleCache.FlushEvents (_s : SimpleCache V) : List Event :=
  [Event.Lock, Event.MapWrite, Event.Unlock]

/-- Events of `Keys`: `len(s.m)` is read, the mutex is not taken. -/
def SimpleCache.KeysEvents (_s : SimpleCache V) : List Event :=
  [Event.MapRead]

/-- Events of `deleteExpire`: `range s.m` reads the map when the loop starts and at
every entry, and `Del` is called for the expired ones; the sweep itself never
takes the mutex. -/
def SimpleCache.deleteExpireEvents (s : SimpleCache V) (now : Int) (delNow : String → Int) :
    List Event :=
  Event.MapRead :: (s.m.entries.foldl
    (fun (acc : SimpleCache V × List Event) e =>
      if now > e.2.expire then
        ((acc.1.Del e.1 (delNow e.1)).2,
          acc.2 ++ [Event.MapRead] ++ acc.1.DelEvents e.1 (delNow e.1))
      else (acc.1, acc.2 ++ [Event.MapRead]))
    (s, [])).2

/-! ## Basic facts about the embedding -/

theorem wrapInt64_of_isInt64 {x : Int} (h : isInt64 x) : wrapInt64 x = x := by
  unfold isInt64 at h
  unfold wrapInt64
  omega

theorem wrapInt64_le_of_lower (x : Int) (h : -(2 ^ 63) ≤ x) : wrapInt64 x ≤ x := by
  unfold wrapInt64
  omega

theorem index_of_lookup_some {m : GoMap V} {key : String} {r : Result V}
    (h : m.lookup key = some r) : index m key = (r, true) := by
  simp [index, h]

theorem index_of_lookup_none {m : GoMap V} {key : String}
    (h : m.lookup key = none) : index m key = (Result.zero, false) := by
  simp [index, h]

theorem Exists_snd (s : SimpleCache V) (key : String) (now : Int) :
    (s.Exists key now).2 = s := by
  unfold SimpleCache.Exists
  split
  split <;> rfl

theorem Exists_of_absent {s : SimpleCache V} {key : String} (now : Int)
    (h : s.m.lookup key = none) : (s.Exists key now).1 = false := by
  simp [SimpleCache.Exists, index_of_lookup_none h]

theorem Exists_of_present {s : SimpleCache V} {key : String} {r : Result V} (now : Int)
    (h : s.m.lookup key = some r) : (s.Exists key now).1 = decide (now ≤ r.expire) := by
  by_cases hle : now ≤ r.expire
  · have : ¬ r.expire < now := by omega
    simp [SimpleCache.Exists, index_of_lookup_some h, hle, this]
  · have : r.expire < now := by omega
    simp [SimpleCache.Exists, index_of_lookup_some h, hle, this]

theorem Del_of_not_Exists {s : SimpleCache V} {key : String} {now : Int}
    (h : (s.Exists key now).1 = false) : s.Del key now = (false, s) := by
  have h2 := Exists_snd s key now
  unfold SimpleCache.Del
  generalize s.Exists key now = p at h h2
  obtain ⟨b, s1⟩ := p
  simp only at h h2
  subst h h2
  rfl

theorem Del_of_Exists {s : SimpleCache V} {key : String} {now : Int}
    (h : (s.Exists key now).1 = true) :
    s.Del key now = (true, { s with m := s.m.erase key }) := by
  have h2 := Exists_snd s key now
  unfold SimpleCache.Del
  generalize s.Exists key now = p at h h2
  obtain ⟨b, s1⟩ := p
  simp only at h h2
  subst h h2
  rfl

theorem length_erase_of_lookup {m : GoMap V} {key : String} {r : Result V}
    (h : m.lookup key = some r) :
    ((m.erase key).entries.length : Int) = (m.entries.length : Int) - 1 := by
  have hmem : key ∈ m.keys := by
    rw [← AList.mem_keys, ← AList.lookup_isSome, h]; rfl
  have h1 : (m.erase key).entries.length = (m.erase key).keys.length := by
    simp [AList.keys, List.keys]
  have h2 : m.entries.length = m.keys.length := by
    simp [AList.keys, List.keys]
  have h3 : 0 < m.keys.length := List.length_pos_of_mem hmem
  rw [h1, h2, AList.keys_erase, List.length_erase_of_mem hmem]
  omega

theorem isMemFull_snd (s : SimpleCache V) (alloc : Nat) : (s.isMemFull alloc).2 = s := by
  unfold SimpleCache.isMemFull SimpleCache.Size
  simp only
  split <;> rfl

theorem isMemFull_iff (s : SimpleCache V) (alloc : Nat) :
    (s.isMemFull alloc).1 = true ↔ (s.Size alloc).1 > s.maxSize := by
  unfold SimpleCache.isMemFull SimpleCache.Size
  simp only
  split <;> simp_all

theorem Set_of_not_full {s : SimpleCache V} {alloc : Nat} (key : String) (val : Option V)
    (expire now : Int) (h : (s.isMemFull alloc).1 = false) :
    s.Set key val expire alloc now =
      (Except.ok (), { s with m := s.m.insert key ⟨val, wrapInt64 (now + expire)⟩ }) := by
  have h2 := isMemFull_snd s alloc
  unfold SimpleCache.Set
  generalize s.isMemFull alloc = p at h h2
  obtain ⟨b, s1⟩ := p
  simp only at h h2
  subst h h2
  rfl

theorem Set_of_full {s : SimpleCache V} {alloc : Nat} (key : String) (val : Option V)
    (expire now : Int) (h : (s.isMemFull alloc).1 = true) :
    s.Set key val expire alloc now = (Except.error "mem is full", s) := by
  have h2 := isMemFull_snd s alloc
  unfold SimpleCache.Set
  generalize s.isMemFull alloc = p at h h2
  obtain ⟨b, s1⟩ := p
  simp only at h h2
  subst h h2
  rfl

theorem Get_of_live {s : SimpleCache V} {key : String} {r : Result V} {now : Int}
    (nowDel : Int) (h : s.m.lookup key = some r) (hle : now ≤ r.expire) :
    s.Get key now nowDel = ((r.value, true), s) := by
  have : ¬ now > r.expire := by omega
  simp [SimpleCache.Get, index_of_lookup_some h, this]

theorem Get_of_expired {s : SimpleCache V} {key : String} {r : Result V} {now : Int}
    (nowDel : Int) (h : s.m.lookup key = some r) (hlt : r.expire < now) :
    s.Get key now nowDel = ((none, false), (s.Del key nowDel).2) := by
  simp [SimpleCache.Get, index_of_lookup_some h, hlt]

theorem Get_of_absent {s : SimpleCache V} {key : String} (now nowDel : Int)
    (h : s.m.lookup key = none) : s.Get key now nowDel = ((none, false), s) := by
  have hd : s.Del key nowDel = (false, s) := Del_of_not_Exists (Exists_of_absent nowDel h)
  unfold SimpleCache.Get
  rw [index_of_lookup_none h]
  simp only [hd]
  split <;> rfl

theorem Del_snd_lookup_self (s : SimpleCache V) (key : String) (now : Int) :
    (s.Del key now).2.m.lookup key = none ∨ (s.Del key now).2.m.lookup key = s.m.lookup key := by
  cases hE : (s.Exists key now).1
  · rw [Del_of_not_Exists hE]; exact Or.inr rfl
  · rw [Del_of_Exists hE]; exact Or.inl (AList.lookup_erase key s.m)

/-! ## Claims -/

/-- C1 as stated fails: on a fresh cache whose admission check passes, `Set` of key
`a` with the largest `time.Duration` at a clock reading of late 2026 stores an
expiry that wrapped around below zero, and the `Get` that follows at the same
reading reports the key as not found. -/
theorem C1_roundtrip_fails_when_expiry_overflows :
    ((NewSimpleCache 0 : SimpleCache Nat).isMemFull 0).1 = false ∧
    (0 : Int) < 9223372036854775807 ∧
    isInt64 9223372036854775807 ∧
    isClock 1793000000000000000 ∧
    (1793000000000000000 : Int) ≤ 1793000000000000000 ∧
    (1793000000000000000 : Int) ≤ 1793000000000000000 + 9223372036854775807 ∧
    ((NewSimpleCache 0 : SimpleCache Nat).Set "a" (some 1) 9223372036854775807 0
        1793000000000000000).1 = Except.ok () ∧
    (((NewSimpleCache 0 : SimpleCache Nat).Set "a" (some 1) 9223372036854775807 0
        1793000000000000000).2.Get "a" 1793000000000000000 1793000000000000000).1
      = (none, false) := by
  decide

/-- C1, amended: when the admission check passes, `t > 0` and the expiry `now + t`
still fits an `int64`, `Set(k, v, t)` at clock reading `now` succeeds and a
`Get(k)` at any reading `now'` with `now <= now' <= now + t` returns `(v, true)`. -/
theorem Set_Get_roundtrip (s : SimpleCache V) (key : String) (val : Option V)
    (expire : Int) (alloc : Nat) (now now' nowDel : Int)
    (hadm : (s.isMemFull alloc).1 = false) (hpos : 0 < expire) (hnow : isClock now)
    (hfit : now + expire < 2 ^ 63) (_hafter : now ≤ now') (hbefore : now' ≤ now + expire) :
    (s.Set key val expire alloc now).1 = Except.ok () ∧
    ((s.Set key val expire alloc now).2.Get key now' nowDel).1 = (val, true) := by
  have hw : wrapInt64 (now + expire) = now + expire := by
    apply wrapInt64_of_isInt64
    unfold isClock at hnow
    unfold isInt64
    omega
  rw [Set_of_not_full key val expire now hadm]
  refine ⟨rfl, ?_⟩
  have hl : ({ s with m := s.m.insert key ⟨val, wrapInt64 (now + expire)⟩ } :
      SimpleCache V).m.lookup key = some ⟨val, wrapInt64 (now + expire)⟩ :=
    AList.lookup_insert s.m
  rw [Get_of_live nowDel hl (by simpa [hw] using hbefore)]

/-- The round trip on a fresh cache: key `a` set for one hour and read 5 ns later. -/
theorem Set_Get_roundtrip_witness :
    ((NewSimpleCache 0 : SimpleCache Nat).isMemFull 0).1 = false ∧
    ((NewSimpleCache 0 : SimpleCache Nat).Set "a" (some 1) 3600000000000 0
        1793000000000000000).1 = Except.ok () ∧
    (((NewSimpleCache 0 : SimpleCache Nat).Set "a" (some 1) 3600000000000 0
        1793000000000000000).2.Get "a" 1793000000000000005 1793000000000000005).1
      = (some 1, true) :=
  ⟨by decide,
   Set_Get_roundtrip (NewSimpleCache 0) "a" (some 1) 3600000000000 0
     1793000000000000000 1793000000000000005 1793000000000000005
     (by decide) (by decide) (by decide) (by decide) (by decide) (by decide)⟩

/-- C2: after a successful `Set(k, v, t)` at clock reading `now`, in any later state
where the entry of `k` is still the one that `Set` wrote, a `Get(k)` at a reading
`now' > now + t` returns `(nil, false)` and an `Exists(k)` after it returns false. -/
theorem Get_Exists_after_expiry (s s2 : SimpleCache V) (key : String) (val : Option V)
    (expire : Int) (alloc : Nat) (now now' nowDel now'' : Int)
    (hset : (s.Set key val expire alloc now).1 = Except.ok ())
    (hnow : isClock now) (hdur : isInt64 expire)
    (hkeep : s2.m.lookup key = (s.Set key val expire alloc now).2.m.lookup key)
    (hlate : now + expire < now') (hsub : now' ≤ now'') :
    (s2.Get key now' nowDel).1 = (none, false) ∧
    ((s2.Get key now' nowDel).2.Exists key now'').1 = false := by
  have hadm : (s.isMemFull alloc).1 = false := by
    cases hf : (s.isMemFull alloc).1
    · rfl
    · rw [Set_of_full key val expire now hf] at hset
      simp at hset
  rw [Set_of_not_full key val expire now hadm] at hkeep
  have hl : s2.m.lookup key = some ⟨val, wrapInt64 (now + expire)⟩ := by
    rw [hkeep]; exact AList.lookup_insert s.m
  have hw : wrapInt64 (now + expire) ≤ now + expire := by
    apply wrapInt64_le_of_lower
    unfold isClock at hnow
    unfold isInt64 at hdur
    omega
  have hexp : (⟨val, wrapInt64 (now + expire)⟩ : Result V).expire < now' := by
    simp only; omega
  rw [Get_of_expired nowDel hl hexp]
  refine ⟨rfl, ?_⟩
  rcases Del_snd_lookup_self s2 key nowDel with h | h
  · exact Exists_of_absent now'' h
  · rw [Exists_of_present now'' (h.trans hl)]
    simp only [decide_eq_false_iff_not, not_le]
    omega

/-- Expiry on a fresh cache: key `b` set for 1 ms and read 3 ms later. -/
theorem Get_Exists_after_expiry_witness :
    ((NewSimpleCache 0 : SimpleCache Nat).Set "b" (some 1) 1000000 0 1793000000000000000).1
      = Except.ok () ∧
    ((1793000000000000000 : Int) + 1000000 < 1793000000003000000) ∧
    ((((NewSimpleCache 0 : SimpleCache Nat).Set "b" (some 1) 1000000 0
        1793000000000000000).2.Get "b" 1793000000003000000 1793000000003000001).1
      = (none, false) ∧
     ((((NewSimpleCache 0 : SimpleCache Nat).Set "b" (some 1) 1000000 0
        1793000000000000000).2.Get "b" 1793000000003000000 1793000000003000001).2.Exists "b"
        1793000000003000002).1 = false) :=
  ⟨by decide, by decide,
   Get_Exists_after_expiry (NewSimpleCache 0) _ "b" (some 1) 1000000 0
     1793000000000000000 1793000000003000000 1793000000003000001 1793000000003000002
     (by decide) (by decide) (by decide) rfl (by decide) (by decide)⟩

theorem Del_of_expired {s : SimpleCache V} {key : String} {r : Result V} {now : Int}
    (h : s.m.lookup key = some r) (hlt : r.expire < now) : s.Del key now = (false, s) := by
  apply Del_of_not_Exists
  rw [Exists_of_present now h]
  simp only [decide_eq_false_iff_not, not_le]
  exact hlt

theorem foldl_Del_expired_eq (s : SimpleCache V) (now : Int) (delNow : String → Int)
    (hmono : ∀ k, now ≤ delNow k) (l : List (Sigma fun _ : String => Result V))
    (hl : ∀ e ∈ l, s.m.lookup e.1 = some e.2) :
    l.foldl (fun acc e => if now > e.2.expire then (acc.Del e.1 (delNow e.1)).2 else acc) s
      = s := by
  induction l with
  | nil => rfl
  | cons e l ih =>
    rw [List.foldl_cons]
    have hstep : (if now > e.2.expire then (s.Del e.1 (delNow e.1)).2 else s) = s := by
      split
      · rename_i hgt
        have hlt : e.2.expire < delNow e.1 := by
          have := hmono e.1
          omega
        rw [Del_of_expired (hl e (List.mem_cons_self e l)) hlt]
      · rfl
    rw [hstep]
    exact ih (fun e' he' => hl e' (List.mem_cons_of_mem e he'))

/-- C3 fails on the code: a sweep deletes nothing.  For every cache state and every
sweep whose clock readings do not run backwards, the state after `deleteExpire` is
the state before it, expired entries included, because the `Del` it delegates to
refuses every key that `Exists` reports as expired. -/
theorem deleteExpire_keeps_expired (s : SimpleCache V) (now : Int) (delNow : String → Int)
    (hmono : ∀ k, now ≤ delNow k) : s.deleteExpire now delNow = s := by
  unfold SimpleCache.deleteExpire
  apply foldl_Del_expired_eq s now delNow hmono
  intro e he
  have : e.2 ∈ s.m.lookup e.1 := AList.mem_lookup_iff.mpr he
  exact this

/-- A sweep at reading 3000000 over a cache holding only `b`, expired at 1000000,
leaves `b` where it was. -/
theorem deleteExpire_keeps_expired_witness :
    (∀ k : String, (3000000 : Int) ≤ (fun _ => 3000000) k) ∧
    (⟨AList.singleton "b" ⟨some 1, 1000000⟩, 102400, 0⟩ : SimpleCache Nat).deleteExpire
        3000000 (fun _ => 3000000)
      = ⟨AList.singleton "b" ⟨some 1, 1000000⟩, 102400, 0⟩ :=
  ⟨fun _ => le_refl _,
   deleteExpire_keeps_expired _ 3000000 (fun _ => 3000000) (fun _ => le_refl _)⟩

/-- C4 fails on the code: `Get` of a present, expired key returns `(nil, false)`
but leaves the cache as it was.  The `Del` it calls reads the clock no earlier
than `Get` did, finds through `Exists` that the key is expired, and returns
without deleting; the entry stays and `Keys()` does not drop. -/
theorem Get_expired_keeps_entry (s : SimpleCache V) (key : String) (r : Result V)
    (now nowDel : Int) (hpresent : s.m.lookup key = some r) (hexpired : now > r.expire)
    (hmono : now ≤ nowDel) :
    (s.Get key now nowDel).1 = (none, false) ∧ (s.Get key now nowDel).2 = s ∧
    (s.Get key now nowDel).2.m.lookup key = some r ∧
    (s.Get key now nowDel).2.Keys.1 = s.Keys.1 := by
  have hlt : r.expire < nowDel := by omega
  rw [Get_of_expired nowDel hpresent (by omega), Del_of_expired hpresent hlt]
  exact ⟨rfl, rfl, hpresent, rfl⟩

/-- A `Get` at reading 3000000 of `b`, expired at 1000000: not found, and still
in the map afterwards. -/
theorem Get_expired_keeps_entry_witness :
    (⟨AList.singleton "b" ⟨some 1, 1000000⟩, 102400, 0⟩ : SimpleCache Nat).m.lookup "b"
      = some ⟨some 1, 1000000⟩ ∧
    ((⟨AList.singleton "b" ⟨some 1, 1000000⟩, 102400, 0⟩ : SimpleCache Nat).Get "b"
        3000000 3000000).1 = (none, false) ∧
    ((⟨AList.singleton "b" ⟨some 1, 1000000⟩, 102400, 0⟩ : SimpleCache Nat).Get "b"
        3000000 3000000).2 = ⟨AList.singleton "b" ⟨some 1, 1000000⟩, 102400, 0⟩ ∧
    ((⟨AList.singleton "b" ⟨some 1, 1000000⟩, 102400, 0⟩ : SimpleCache Nat).Get "b"
        3000000 3000000).2.m.lookup "b" = some ⟨some 1, 1000000⟩ ∧
    ((⟨AList.singleton "b" ⟨some 1, 1000000⟩, 102400, 0⟩ : SimpleCache Nat).Get "b"
        3000000 3000000).2.Keys.1 = 1 :=
  ⟨by decide,
   Get_expired_keeps_entry _ "b" ⟨some 1, 1000000⟩ 3000000 3000000
     (by decide) (by decide) (by decide)⟩

/-- C5: `Del(k)` returns true exactly when `k` is in the map with an entry that is
not expired at the clock reading; then `k` is gone, every other key keeps its
entry, the cap and the baseline are kept and `Keys()` is one less; when it returns
false the cache is unchanged. -/
theorem Del_contract (s : SimpleCache V) (key : String) (now : Int) :
    ((s.Del key now).1 = true ↔ ∃ r, s.m.lookup key = some r ∧ ¬ now > r.expire) ∧
    ((s.Del key now).1 = true →
      (s.Del key now).2.m.lookup key = none ∧
      (∀ k, k ≠ key → (s.Del key now).2.m.lookup k = s.m.lookup k) ∧
      (s.Del key now).2.maxSize = s.maxSize ∧
      (s.Del key now).2.orgMem = s.orgMem ∧
      (s.Del key now).2.Keys.1 = s.Keys.1 - 1) ∧
    ((s.Del key now).1 = false →
      (s.Del key now).2 = s ∧ (s.Del key now).2.Keys.1 = s.Keys.1) := by
  cases hl : s.m.lookup key with
  | none =>
    rw [Del_of_not_Exists (Exists_of_absent now hl)]
    simp
  | some r =>
    by_cases hle : now ≤ r.expire
    · have hE : (s.Exists key now).1 = true := by
        rw [Exists_of_present now hl]; simpa using hle
      rw [Del_of_Exists hE]
      refine ⟨?_, ?_, ?_⟩
      · simp only [true_iff]
        exact ⟨r, rfl, by omega⟩
      · intro _
        refine ⟨AList.lookup_erase key s.m, ?_, rfl, rfl, ?_⟩
        · intro k hk
          exact AList.lookup_erase_ne hk
        · exact length_erase_of_lookup hl
      · intro h; simp at h
    · rw [Del_of_expired hl (by omega)]
      refine ⟨?_, ?_, ?_⟩
      · simp only [Bool.false_eq_true, false_iff, not_exists, not_and, not_not]
        intro r2 hr2
        cases hr2
        omega
      · intro h; simp at h
      · intro _; exact ⟨rfl, rfl⟩

/-- C6: `Exists(k)` is true exactly when `k` is in the map with an entry whose
expiry is not before the clock reading (`now <= expireAt`), and it leaves the
cache, its map and its cap included, unchanged. -/
theorem Exists_contract (s : SimpleCache V) (key : String) (now : Int) :
    ((s.Exists key now).1 = true ↔ ∃ r, s.m.lookup key = some r ∧ now ≤ r.expire) ∧
    (s.Exists key now).2 = s ∧
    (s.Exists key now).2.m = s.m ∧ (s.Exists key now).2.maxSize = s.maxSize := by
  refine ⟨?_, Exists_snd s key now, by rw [Exists_snd], by rw [Exists_snd]⟩
  cases hl : s.m.lookup key with
  | none => simp [Exists_of_absent now hl]
  | some r => simp [Exists_of_present now hl]

/-- C7: `Set` panics with `mem is full` exactly when the usage computed by `Size`
is strictly above `maxSize`; when it panics the cache is unchanged; otherwise it
returns normally, the entry of `k` is the new one (inserted or replaced), and
every other key, the cap and the baseline are kept. -/
theorem Set_admission (s : SimpleCache V) (key : String) (val : Option V) (expire : Int)
    (alloc : Nat) (now : Int) :
    ((s.Set key val expire alloc now).1 = Except.error "mem is full" ↔
      (s.Size alloc).1 > s.maxSize) ∧
    ((s.Size alloc).1 > s.maxSize → (s.Set key val expire alloc now).2 = s) ∧
    (¬ (s.Size alloc).1 > s.maxSize →
      (s.Set key val expire alloc now).1 = Except.ok () ∧
      (s.Set key val expire alloc now).2.m.lookup key
        = some ⟨val, wrapInt64 (now + expire)⟩ ∧
      (∀ k, k ≠ key → (s.Set key val expire alloc now).2.m.lookup k = s.m.lookup k) ∧
      (s.Set key val expire alloc now).2.maxSize = s.maxSize ∧
      (s.Set key val expire alloc now).2.orgMem = s.orgMem) := by
  by_cases hfull : (s.Size alloc).1 > s.maxSize
  · have hf : (s.isMemFull alloc).1 = true := (isMemFull_iff s alloc).mpr hfull
    rw [Set_of_full key val expire now hf]
    exact ⟨by simp [hfull], fun _ => rfl, fun h => absurd hfull h⟩
  · have hf : (s.isMemFull alloc).1 = false := by
      cases h : (s.isMemFull alloc).1
      · rfl
      · exact absurd ((isMemFull_iff s alloc).mp h) hfull
    rw [Set_of_not_full key val expire now hf]
    refine ⟨by simp [hfull], fun h => absurd h hfull, fun _ => ?_⟩
    refine ⟨rfl, AList.lookup_insert s.m, ?_, rfl, rfl⟩
    intro k hk
    exact AList.lookup_insert_ne hk

/-! ## Facts about the library functions -/

theorem toNat_ofNat_ascii (m : Nat) (h : m < 128) : (Char.ofNat m).toNat = m := by
  interval_cases m <;> rfl

theorem eq_of_toNat_eq {c d : Char} (h : c.toNat = d.toNat) : c = d := by
  rw [← Char.ofNat_toNat c, ← Char.ofNat_toNat d, h]

theorem toLower_of_not_upper (c : Char) (h : ¬ (65 ≤ c.toNat ∧ c.toNat ≤ 90)) :
    c.toLower = c := by
  unfold Char.toLower
  exact if_neg h

theorem toNat_toLower_of_upper (c : Char) (h : 65 ≤ c.toNat ∧ c.toNat ≤ 90) :
    c.toLower.toNat = c.toNat + 32 := by
  unfold Char.toLower
  simp only [ge_iff_le, h, and_self, if_true]
  exact toNat_ofNat_ascii _ (by omega)

theorem toLower_eq_iff (c t : Char) (ht : 97 ≤ t.toNat ∧ t.toNat ≤ 122) :
    c.toLower = t ↔ c = t ∨ c = Char.ofNat (t.toNat - 32) := by
  have hT : (Char.ofNat (t.toNat - 32)).toNat = t.toNat - 32 :=
    toNat_ofNat_ascii _ (by omega)
  by_cases h : 65 ≤ c.toNat ∧ c.toNat ≤ 90
  · have hc := toNat_toLower_of_upper c h
    constructor
    · intro e
      right
      apply eq_of_toNat_eq
      rw [hT, ← e, hc]; omega
    · rintro (e | e)
      · subst e; omega
      · apply eq_of_toNat_eq
        rw [hc, e, hT]; omega
  · rw [toLower_of_not_upper c h]
    constructor
    · exact Or.inl
    · rintro (e | e)
      · exact e
      · exfalso; apply h; rw [e, hT]; omega

theorem isDecimalDigit_toLower (c : Char) : isDecimalDigit c.toLower = isDecimalDigit c := by
  by_cases h : 65 ≤ c.toNat ∧ c.toNat ≤ 90
  · have hc := toNat_toLower_of_upper c h
    have h1 : isDecimalDigit c.toLower = false := by
      unfold isDecimalDigit; rw [hc]; simp only [decide_eq_false_iff_not]; omega
    have h2 : isDecimalDigit c = false := by
      unfold isDecimalDigit; simp only [decide_eq_false_iff_not]; omega
    rw [h1, h2]
  · rw [toLower_of_not_upper c h]

theorem toLower_of_isDecimalDigit (c : Char) (h : isDecimalDigit c = true) : c.toLower = c := by
  apply toLower_of_not_upper
  unfold isDecimalDigit at h
  simp only [decide_eq_true_eq] at h
  omega

theorem kelvinSign_toNat : kelvinSign.toNat = 8490 := by
  rfl

theorem capitalIWithDot_toNat : capitalIWithDot.toNat = 304 := by
  rfl

theorem unicodeToLower_kelvinSign : unicodeToLower kelvinSign = 'k' := by
  rfl

theorem unicodeToLower_capitalIWithDot : unicodeToLower capitalIWithDot = 'i' := by
  rfl

theorem unicodeToLower_of_ne (c : Char) (h1 : c ≠ kelvinSign) (h2 : c ≠ capitalIWithDot) :
    unicodeToLower c = c.toLower := by
  unfold unicodeToLower
  rw [if_neg h1, if_neg h2]

theorem isDecimalDigit_unicodeToLower (c : Char) :
    isDecimalDigit (unicodeToLower c) = isDecimalDigit c := by
  by_cases h1 : c = kelvinSign
  · subst h1; rfl
  · by_cases h2 : c = capitalIWithDot
    · subst h2; rfl
    · rw [unicodeToLower_of_ne c h1 h2]
      exact isDecimalDigit_toLower c

theorem unicodeToLower_of_isDecimalDigit (c : Char) (h : isDecimalDigit c = true) :
    unicodeToLower c = c := by
  have hd : 48 ≤ c.toNat ∧ c.toNat ≤ 57 := by
    unfold isDecimalDigit at h
    simpa using h
  have h1 : c ≠ kelvinSign := by
    rintro rfl
    rw [kelvinSign_toNat] at hd
    omega
  have h2 : c ≠ capitalIWithDot := by
    rintro rfl
    rw [capitalIWithDot_toNat] at hd
    omega
  rw [unicodeToLower_of_ne c h1 h2]
  exact toLower_of_isDecimalDigit c h

theorem unicodeToLower_eq_letter (c t : Char) (ht : 97 ≤ t.toNat ∧ t.toNat ≤ 122)
    (hk : t ≠ 'k') (hi : t ≠ 'i') :
    unicodeToLower c = t ↔ c = t ∨ c = Char.ofNat (t.toNat - 32) := by
  have hT : (Char.ofNat (t.toNat - 32)).toNat = t.toNat - 32 :=
    toNat_ofNat_ascii _ (by omega)
  by_cases h1 : c = kelvinSign
  · subst h1
    rw [unicodeToLower_kelvinSign]
    constructor
    · intro e; exact absurd e.symm hk
    · rintro (e | e)
      · have := congrArg Char.toNat e
        rw [kelvinSign_toNat] at this
        omega
      · have := congrArg Char.toNat e
        rw [kelvinSign_toNat, hT] at this
        omega
  · by_cases h2 : c = capitalIWithDot
    · subst h2
      rw [unicodeToLower_capitalIWithDot]
      constructor
      · intro e; exact absurd e.symm hi
      · rintro (e | e)
        · have := congrArg Char.toNat e
          rw [capitalIWithDot_toNat] at this
          omega
        · have := congrArg Char.toNat e
          rw [capitalIWithDot_toNat, hT] at this
          omega
    · rw [unicodeToLower_of_ne c h1 h2]
      exact toLower_eq_iff c t ht

theorem unicodeToLower_eq_k (c : Char) :
    unicodeToLower c = 'k' ↔ c = 'k' ∨ c = 'K' ∨ c = kelvinSign := by
  by_cases h1 : c = kelvinSign
  · subst h1
    simp [unicodeToLower_kelvinSign]
  · by_cases h2 : c = capitalIWithDot
    · subst h2
      decide
    · rw [unicodeToLower_of_ne c h1 h2, toLower_eq_iff c 'k' (by decide)]
      have hK : Char.ofNat ('k'.toNat - 32) = 'K' := by decide
      rw [hK]
      simp [h1]

theorem parseDigits_map_toLower (cs : List Char) (n : Nat) :
    parseDigits (cs.map unicodeToLower) n = parseDigits cs n := by
  induction cs generalizing n with
  | nil => rfl
  | cons c cs ih =>
    simp only [List.map_cons, parseDigits, isDecimalDigit_unicodeToLower]
    cases hd : isDecimalDigit c
    · simp
    · simp [unicodeToLower_of_isDecimalDigit c hd, ih]

theorem parseDigits_eq (cs : List Char) (n : Nat) :
    parseDigits cs n =
      if cs.all isDecimalDigit then some (cs.foldl (fun n c => 10 * n + (c.toNat - 48)) n)
      else none := by
  induction cs generalizing n with
  | nil => rfl
  | cons c cs ih =>
    simp only [parseDigits, List.all_cons, List.foldl_cons]
    cases hd : isDecimalDigit c
    · simp
    · simp [ih]

theorem ParseUint_map_toLower (cs : List Char) :
    ParseUint ⟨cs.map unicodeToLower⟩ = ParseUint ⟨cs⟩ := by
  unfold ParseUint
  simp only [parseDigits_map_toLower, List.map_eq_nil_iff]

theorem ParseUint_eq_some_iff (cs : List Char) (v : Nat) :
    ParseUint ⟨cs⟩ = some v ↔
      cs ≠ [] ∧ cs.all isDecimalDigit = true ∧ decimalValue cs = v ∧ v < 2 ^ 64 := by
  unfold ParseUint decimalValue
  simp only [parseDigits_eq]
  by_cases hnil : cs = []
  · simp [hnil]
  · by_cases hall : cs.all isDecimalDigit = true
    · simp only [hnil, hall, if_true, if_false]
      constructor
      · intro h
        split at h
        · rename_i hlt
          injection h with h
          subst h
          exact ⟨hnil, trivial, rfl, hlt⟩
        · cases h
      · rintro ⟨_, _, rfl, hlt⟩
        rw [if_pos hlt]
    · simp [hnil, hall]

theorem HasSuffix_two (cs : List Char) (a b : Char) (hlen : 2 ≤ cs.length) :
    HasSuffix ⟨cs⟩ ⟨[a, b]⟩ = decide (cs.drop (cs.length - 2) = [a, b]) := by
  simp [HasSuffix, hlen]

theorem map_toLower_eq_unit (u : List Char) (x X : Char) (hx : 97 ≤ x.toNat ∧ x.toNat ≤ 122)
    (hk : x ≠ 'k') (hi : x ≠ 'i') (hX : Char.ofNat (x.toNat - 32) = X) :
    u.map unicodeToLower = [x, 'b'] ↔ spells x X u = true := by
  have hb := fun c => unicodeToLower_eq_letter c 'b' (by decide) (by decide) (by decide)
  have hB : Char.ofNat ('b'.toNat - 32) = 'B' := by decide
  simp only [hB] at hb
  have hxx := fun c => unicodeToLower_eq_letter c x hx hk hi
  simp only [hX] at hxx
  unfold spells
  simp only [decide_eq_true_eq]
  constructor
  · intro h
    match u, h with
    | [], h => simp at h
    | [_], h => simp at h
    | _ :: _ :: _ :: _, h => simp at h
    | [c, d], h =>
      simp only [List.map_cons, List.map_nil, List.cons.injEq, and_true] at h
      rcases (hxx c).mp h.1 with rfl | rfl <;> rcases (hb d).mp h.2 with rfl | rfl <;> simp
  · rintro (rfl | rfl | rfl | rfl) <;>
      simp only [List.map_cons, List.map_nil, List.cons.injEq, and_true] <;>
      exact ⟨(hxx _).mpr (by simp), (hb _).mpr (by simp)⟩

theorem map_toLower_eq_kb (u : List Char) :
    u.map unicodeToLower = ['k', 'b'] ↔ unitKB u = true := by
  have hb := fun c => unicodeToLower_eq_letter c 'b' (by decide) (by decide) (by decide)
  have hB : Char.ofNat ('b'.toNat - 32) = 'B' := by decide
  simp only [hB] at hb
  unfold unitKB isKB isKelvinB spells
  simp only [Bool.or_eq_true, decide_eq_true_eq]
  constructor
  · intro h
    match u, h with
    | [], h => simp at h
    | [_], h => simp at h
    | _ :: _ :: _ :: _, h => simp at h
    | [c, d], h =>
      simp only [List.map_cons, List.map_nil, List.cons.injEq, and_true] at h
      rcases (unicodeToLower_eq_k c).mp h.1 with rfl | rfl | rfl <;>
        rcases (hb d).mp h.2 with rfl | rfl <;> simp
  · rintro ((rfl | rfl | rfl | rfl) | (rfl | rfl)) <;>
      simp only [List.map_cons, List.map_nil, List.cons.injEq, and_true] <;>
      exact ⟨(unicodeToLower_eq_k _).mpr (by simp), (hb _).mpr (by simp)⟩

theorem SetMaxMemory_short (s : SimpleCache V) (size : String) (hlen : size.data.length ≤ 2) :
    s.SetMaxMemory size = (false, s) := by
  unfold SimpleCache.SetMaxMemory
  rw [if_pos hlen]

theorem SetMaxMemory_eq (s : SimpleCache V) (size : String) (hlen : 2 < size.data.length) :
    s.SetMaxMemory size =
      match ParseUint ⟨numOf size⟩ with
      | none => (false, s)
      | some num =>
        if unitKB (unitOf size) then (true, { s with maxSize := num * 2 ^ 10 % 2 ^ 64 })
        else if isMB (unitOf size) then (true, { s with maxSize := num * 2 ^ 20 % 2 ^ 64 })
        else if isGB (unitOf size) then (true, { s with maxSize := num * 2 ^ 30 % 2 ^ 64 })
        else (false, s) := by
  have hk : ("kb" : String) = ⟨['k', 'b']⟩ := rfl
  have hm : ("mb" : String) = ⟨['m', 'b']⟩ := rfl
  have hg : ("gb" : String) = ⟨['g', 'b']⟩ := rfl
  have hlen2 : 2 ≤ (size.data.map unicodeToLower).length := by
    rw [List.length_map]; omega
  have hK := map_toLower_eq_kb (unitOf size)
  have hM := map_toLower_eq_unit (unitOf size) 'm' 'M' (by decide) (by decide) (by decide)
    (by decide)
  have hG := map_toLower_eq_unit (unitOf size) 'g' 'G' (by decide) (by decide) (by decide)
    (by decide)
  have e1 : (num : Nat) → wrapUint64 (num * 1024) = num * 2 ^ 10 % 2 ^ 64 := by
    intro num; unfold wrapUint64; omega
  have e2 : (num : Nat) → num * 2 ^ 10 % 2 ^ 64 * 2 ^ 10 % 2 ^ 64
      = num * 2 ^ 20 % 2 ^ 64 := by
    intro num; omega
  have e3 : (num : Nat) → num * 2 ^ 20 % 2 ^ 64 * 2 ^ 10 % 2 ^ 64
      = num * 2 ^ 30 % 2 ^ 64 := by
    intro num; omega
  unfold SimpleCache.SetMaxMemory
  rw [if_neg (by omega)]
  simp only [ToLower, hk, hm, hg, HasSuffix_two _ _ _ hlen2, List.length_map,
    ← List.map_take, ← List.map_drop, ParseUint_map_toLower, e1, e2, e3]
  unfold isMB isGB
  unfold unitOf numOf at *
  simp only [decide_eq_true_eq, hK, hM, hG]

theorem spells_exclusive (x X y Y : Char) (u : List Char) (hxy : x ≠ y) (hxY : x ≠ Y)
    (hXy : X ≠ y) (hXY : X ≠ Y) (h : spells y Y u = true) : spells x X u = false := by
  unfold spells at *
  simp only [decide_eq_true_eq, decide_eq_false_iff_not] at *
  rcases h with rfl | rfl | rfl | rfl <;>
    simp [hxy, hxY, hXy, hXY, hxy.symm, hxY.symm, hXy.symm, hXY.symm]

theorem isKelvinB_of_spells (x X : Char) (u : List Char) (hx : x ≠ kelvinSign)
    (hX : X ≠ kelvinSign) (h : spells x X u = true) : isKelvinB u = false := by
  unfold spells at h
  unfold isKelvinB
  simp only [decide_eq_true_eq, decide_eq_false_iff_not] at *
  rcases h with rfl | rfl | rfl | rfl <;> simp [hx, hX]

/-- The size specs named in the specification: `100kb` and `1gb` are accepted,
`bad`, the empty string and `5xb` are rejected. -/
theorem SetMaxMemory_examples :
    ((NewSimpleCache 0 : SimpleCache Nat).SetMaxMemory "100kb").1 = true ∧
    ((NewSimpleCache 0 : SimpleCache Nat).SetMaxMemory "1gb").1 = true ∧
    ((NewSimpleCache 0 : SimpleCache Nat).SetMaxMemory "bad").1 = false ∧
    ((NewSimpleCache 0 : SimpleCache Nat).SetMaxMemory "").1 = false ∧
    ((NewSimpleCache 0 : SimpleCache Nat).SetMaxMemory "5xb").1 = false := by
  decide

/-- C9 as stated fails: the size spec `18014398509481984kb` is accepted with numeric
part `2^54`, and the stored cap is `0`, not the product `2^54 * 2^10 = 2^64`. -/
theorem C9_conversion_wraps_around :
    ((NewSimpleCache 0 : SimpleCache Nat).SetMaxMemory "18014398509481984kb").1 = true ∧
    isKB (unitOf "18014398509481984kb") = true ∧
    decimalValue (numOf "18014398509481984kb") = 18014398509481984 ∧
    ((NewSimpleCache 0 : SimpleCache Nat).SetMaxMemory "18014398509481984kb").2.maxSize = 0 ∧
    (18014398509481984 * 2 ^ 10 : Nat) ≠ 0 := by
  decide

/-- C9, amended: for every string that `SetMaxMemory` accepts, with numeric part
`n`, the unit is `kb` (in any letter case, the Kelvin sign U+212A standing for `k`
as `strings.ToLower` has it), `mb` or `gb`, and the stored `maxSize` is `n * 2^10`
for `kb`, `n * 2^20` for `mb` and `n * 2^30` for `gb`, reduced modulo `2^64`; it is
the exact product whenever the product is below `2^64`. -/
theorem SetMaxMemory_conversion (s : SimpleCache V) (size : String)
    (hacc : (s.SetMaxMemory size).1 = true) :
    (unitKB (unitOf size) = true ∨ isMB (unitOf size) = true ∨ isGB (unitOf size) = true) ∧
    (unitKB (unitOf size) = true →
      (s.SetMaxMemory size).2.maxSize = decimalValue (numOf size) * 2 ^ 10 % 2 ^ 64) ∧
    (isMB (unitOf size) = true →
      (s.SetMaxMemory size).2.maxSize = decimalValue (numOf size) * 2 ^ 20 % 2 ^ 64) ∧
    (isGB (unitOf size) = true →
      (s.SetMaxMemory size).2.maxSize = decimalValue (numOf size) * 2 ^ 30 % 2 ^ 64) ∧
    (∀ e : Nat, (unitKB (unitOf size) = true ∧ e = 10) ∨ (isMB (unitOf size) = true ∧ e = 20) ∨
        (isGB (unitOf size) = true ∧ e = 30) →
      decimalValue (numOf size) * 2 ^ e < 2 ^ 64 →
      (s.SetMaxMemory size).2.maxSize = decimalValue (numOf size) * 2 ^ e) := by
  have hlen : 2 < size.data.length := by
    by_contra hlen
    rw [SetMaxMemory_short s size (by omega)] at hacc
    cases hacc
  have hkm : isMB (unitOf size) = true → unitKB (unitOf size) = false := by
    intro h
    unfold unitKB
    rw [isKelvinB_of_spells 'm' 'M' _ (by decide) (by decide) h]
    unfold isKB
    rw [spells_exclusive 'k' 'K' 'm' 'M' (unitOf size)
      (by decide) (by decide) (by decide) (by decide) h]
    rfl
  have hkg : isGB (unitOf size) = true → unitKB (unitOf size) = false := by
    intro h
    unfold unitKB
    rw [isKelvinB_of_spells 'g' 'G' _ (by decide) (by decide) h]
    unfold isKB
    rw [spells_exclusive 'k' 'K' 'g' 'G' (unitOf size)
      (by decide) (by decide) (by decide) (by decide) h]
    rfl
  have hmg : isGB (unitOf size) = true → isMB (unitOf size) = false :=
    spells_exclusive 'm' 'M' 'g' 'G' (unitOf size)
      (by decide) (by decide) (by decide) (by decide)
  have key : (unitKB (unitOf size) = true ∨ isMB (unitOf size) = true ∨
        isGB (unitOf size) = true) ∧
      (unitKB (unitOf size) = true →
        (s.SetMaxMemory size).2.maxSize = decimalValue (numOf size) * 2 ^ 10 % 2 ^ 64) ∧
      (isMB (unitOf size) = true →
        (s.SetMaxMemory size).2.maxSize = decimalValue (numOf size) * 2 ^ 20 % 2 ^ 64) ∧
      (isGB (unitOf size) = true →
        (s.SetMaxMemory size).2.maxSize = decimalValue (numOf size) * 2 ^ 30 % 2 ^ 64) := by
    rw [SetMaxMemory_eq s size hlen] at hacc ⊢
    cases hP : ParseUint ⟨numOf size⟩ with
    | none => rw [hP] at hacc; cases hacc
    | some num =>
      obtain ⟨_, _, h2, _⟩ := (ParseUint_eq_some_iff (numOf size) num).mp hP
      rw [hP] at hacc
      simp only at hacc ⊢
      rw [h2]
      cases hk : unitKB (unitOf size) <;> cases hm : isMB (unitOf size) <;>
        cases hg : isGB (unitOf size) <;> simp_all
  obtain ⟨k0, k1, k2, k3⟩ := key
  refine ⟨k0, k1, k2, k3, ?_⟩
  rintro e (⟨h, rfl⟩ | ⟨h, rfl⟩ | ⟨h, rfl⟩) hfit
  · rw [k1 h, Nat.mod_eq_of_lt hfit]
  · rw [k2 h, Nat.mod_eq_of_lt hfit]
  · rw [k3 h, Nat.mod_eq_of_lt hfit]

/-- The size spec made of `3`, the Kelvin sign and `B` is accepted and stores
`3 * 2^10` bytes. -/
theorem SetMaxMemory_conversion_witness :
    ((NewSimpleCache 0 : SimpleCache Nat).SetMaxMemory
      (String.mk ['3', kelvinSign, 'B'])).1 = true ∧
    unitKB (unitOf (String.mk ['3', kelvinSign, 'B'])) = true ∧
    decimalValue (numOf (String.mk ['3', kelvinSign, 'B'])) = 3 ∧
    ((NewSimpleCache 0 : SimpleCache Nat).SetMaxMemory
      (String.mk ['3', kelvinSign, 'B'])).2.maxSize
      = decimalValue (numOf (String.mk ['3', kelvinSign, 'B'])) * 2 ^ 10 % 2 ^ 64 :=
  ⟨by decide, by decide, by decide,
   (SetMaxMemory_conversion (NewSimpleCache 0 : SimpleCache Nat)
     (String.mk ['3', kelvinSign, 'B']) (by decide)).2.1 (by decide)⟩

/-- C10: whenever `SetMaxMemory(s)` returns false, the cache after the call is the
cache before it: `maxSize` keeps its value and the map of entries is unchanged. -/
theorem SetMaxMemory_rejected_unchanged (s : SimpleCache V) (size : String)
    (hrej : (s.SetMaxMemory size).1 = false) :
    (s.SetMaxMemory size).2 = s ∧
    (s.SetMaxMemory size).2.maxSize = s.maxSize ∧ (s.SetMaxMemory size).2.m = s.m := by
  have main : (s.SetMaxMemory size).2 = s := by
    by_cases hlen : 2 < size.data.length
    · rw [SetMaxMemory_eq s size hlen] at hrej ⊢
      cases hP : ParseUint ⟨numOf size⟩ with
      | none => rfl
      | some num =>
        rw [hP] at hrej
        simp only at hrej ⊢
        split at hrej
        · cases hrej
        · split at hrej
          · cases hrej
          · split at hrej
            · cases hrej
            · rename_i h1 h2 h3
              simp [h1, h2, h3]
    · rw [SetMaxMemory_short s size (by omega)]
  exact ⟨main, by rw [main], by rw [main]⟩

/-- The rejected size spec `5xb` leaves a cache with one entry and a cap of 102400
bytes as it was. -/
theorem SetMaxMemory_rejected_unchanged_witness :
    ((⟨AList.singleton "a" ⟨some 1, 5⟩, 102400, 7⟩ : SimpleCache Nat).SetMaxMemory "5xb").1
      = false ∧
    ((⟨AList.singleton "a" ⟨some 1, 5⟩, 102400, 7⟩ : SimpleCache Nat).SetMaxMemory "5xb").2
      = ⟨AList.singleton "a" ⟨some 1, 5⟩, 102400, 7⟩ ∧
    ((⟨AList.singleton "a" ⟨some 1, 5⟩, 102400, 7⟩ : SimpleCache Nat).SetMaxMemory "5xb").2.maxSize
      = 102400 ∧
    ((⟨AList.singleton "a" ⟨some 1, 5⟩, 102400, 7⟩ : SimpleCache Nat).SetMaxMemory "5xb").2.m
      = AList.singleton "a" ⟨some 1, 5⟩ :=
  ⟨by decide,
   SetMaxMemory_rejected_unchanged
     (⟨AList.singleton "a" ⟨some 1, 5⟩, 102400, 7⟩ : SimpleCache Nat) "5xb" (by decide)⟩

/-! ## Further facts about the map and the methods -/

theorem length_entries_eq_keys (m : GoMap V) : m.entries.length = m.keys.length := by
  simp [AList.keys, List.keys]

theorem length_insert_of_lookup_none {m : GoMap V} {key : String} (r : Result V)
    (h : m.lookup key = none) : (m.insert key r).entries.length = m.entries.length + 1 := by
  have hnot : key ∉ m := AList.lookup_eq_none.mp h
  rw [AList.insert_entries_of_neg hnot, List.length_cons]

theorem length_insert_of_lookup_some {m : GoMap V} {key : String} (r : Result V)
    {r0 : Result V} (h : m.lookup key = some r0) :
    (m.insert key r).entries.length = m.entries.length := by
  have hmem : key ∈ m.keys := by
    rw [← AList.mem_keys, ← AList.lookup_isSome, h]; rfl
  have h3 : 0 < m.keys.length := List.length_pos_of_mem hmem
  rw [length_entries_eq_keys, length_entries_eq_keys, AList.keys_insert, List.length_cons,
    List.length_erase_of_mem hmem]
  omega

theorem Del_lookup_of_ne (s : SimpleCache V) {key k : String} (now : Int) (hk : k ≠ key) :
    (s.Del key now).2.m.lookup k = s.m.lookup k := by
  cases hE : (s.Exists key now).1
  · rw [Del_of_not_Exists hE]
  · rw [Del_of_Exists hE]; exact AList.lookup_erase_ne hk

theorem Set_ok_iff (s : SimpleCache V) (key : String) (val : Option V) (expire : Int)
    (alloc : Nat) (now : Int) :
    (s.Set key val expire alloc now).1 = Except.ok () ↔ (s.isMemFull alloc).1 = false := by
  cases hf : (s.isMemFull alloc).1
  · rw [Set_of_not_full key val expire now hf]; simp
  · rw [Set_of_full key val expire now hf]; simp

/-! ## Claims, continued -/

/-- C11 as stated fails: with a baseline of 2000000 bytes and a live reading of
1500000 bytes, `Size()` returns `2^64 - 500000`, not `max(0, live - baseline) = 0`. -/
theorem C11_Size_wraps_below_baseline :
    (1500000 : Nat) < 2000000 ∧
    max 0 ((1500000 : Int) - 2000000) = 0 ∧
    ((NewSimpleCache 2000000 : SimpleCache Nat).Size 1500000).1 = 18446744073709051616 := by
  decide

/-- C11, amended: for `uint64` readings `live` and `baseline`, `Size()` returns
`live - baseline` reduced modulo `2^64`: the difference itself when the live
reading is at least the baseline, and `2^64 - (baseline - live)` when it is below;
the cache is left unchanged. -/
theorem Size_eq_wrapped_difference (s : SimpleCache V) (alloc : Nat)
    (halloc : alloc < 2 ^ 64) (hbase : s.orgMem < 2 ^ 64) :
    (((s.Size alloc).1 : Int) = ((alloc : Int) - (s.orgMem : Int)) % 2 ^ 64) ∧
    (s.orgMem ≤ alloc → (s.Size alloc).1 = alloc - s.orgMem) ∧
    (alloc < s.orgMem → (s.Size alloc).1 = 2 ^ 64 - (s.orgMem - alloc)) ∧
    (s.Size alloc).2 = s := by
  unfold SimpleCache.Size wrapUint64
  simp only
  refine ⟨by omega, fun h => by omega, fun h => by omega, trivial⟩

/-- A live reading of 2500000 bytes over a baseline of 2000000 gives 500000. -/
theorem Size_eq_wrapped_difference_witness :
    (2500000 : Nat) < 2 ^ 64 ∧ (NewSimpleCache 2000000 : SimpleCache Nat).orgMem < 2 ^ 64 ∧
    ((NewSimpleCache 2000000 : SimpleCache Nat).Size 2500000).1 = 2500000 - 2000000 :=
  ⟨by decide, by decide,
   (Size_eq_wrapped_difference (NewSimpleCache 2000000 : SimpleCache Nat) 2500000
     (by decide) (by decide)).2.1 (by decide)⟩

/-- C12: for every cache state, `Flush()` returns true; afterwards `Keys()` is 0,
`Exists(k)` is false for every key at every clock reading, and `maxSize` and the
baseline are what they were. -/
theorem Flush_clears_all (s : SimpleCache V) :
    s.Flush.1 = true ∧
    s.Flush.2.Keys.1 = 0 ∧
    (∀ (k : String) (now : Int), (s.Flush.2.Exists k now).1 = false) ∧
    s.Flush.2.maxSize = s.maxSize ∧ s.Flush.2.orgMem = s.orgMem := by
  refine ⟨rfl, rfl, ?_, rfl, rfl⟩
  intro k now
  exact Exists_of_absent now (AList.lookup_empty k)

/-- C13: `Keys()` is the number of keys in the map, whatever the clock reading:
entries expired at `now` and entries live at `now` are counted alike; `Keys()`
leaves the cache unchanged, a `Set` that returns normally for a key not in the
map raises `Keys()` by one, and a sweep of the background task, with a clock that
does not run backwards, leaves `Keys()` as it was. -/
theorem Keys_raw_count (s : SimpleCache V) (now : Int) :
    s.Keys.1 = (s.m.keys.length : Int) ∧
    s.m.keys.Nodup ∧
    s.Keys.1 = ((s.m.entries.countP (fun e => decide (now > e.2.expire)) : Nat) : Int)
      + ((s.m.entries.countP (fun e => decide (¬ now > e.2.expire)) : Nat) : Int) ∧
    s.Keys.2 = s ∧
    (∀ (key : String) (val : Option V) (expire : Int) (alloc : Nat) (now0 : Int),
      s.m.lookup key = none →
      (s.Set key val expire alloc now0).1 = Except.ok () →
      (s.Set key val expire alloc now0).2.Keys.1 = s.Keys.1 + 1) ∧
    (∀ (now0 : Int) (delNow : String → Int), (∀ k, now0 ≤ delNow k) →
      (s.deleteExpire now0 delNow).Keys.1 = s.Keys.1) := by
  refine ⟨?_, AList.keys_nodup s.m, ?_, rfl, ?_, ?_⟩
  · unfold SimpleCache.Keys
    simp only [length_entries_eq_keys]
  · unfold SimpleCache.Keys
    simp only
    rw [List.length_eq_countP_add_countP (fun e => decide (now > e.2.expire)) s.m.entries]
    simp
  · intro key val expire alloc now0 habs hok
    have hadm := (Set_ok_iff s key val expire alloc now0).mp hok
    rw [Set_of_not_full key val expire now0 hadm]
    unfold SimpleCache.Keys
    simp only
    rw [length_insert_of_lookup_none _ habs]
    push_cast
    rfl
  · intro now0 delNow hmono
    have hsame : s.deleteExpire now0 delNow = s := by
      unfold SimpleCache.deleteExpire
      apply foldl_Del_expired_eq s now0 delNow hmono
      intro e he
      have : e.2 ∈ s.m.lookup e.1 := AList.mem_lookup_iff.mpr he
      exact this
    rw [hsame]

/-- C14: after a `Set(k, v1, t1)` and then a `Set(k, v2, t2)` that both return
normally, the map holds one entry for `k`, with value `v2` and the expiry stamped
by the second `Set`; `Keys()` is what it was after the first `Set`, and a `Get(k)`
not later than that expiry returns `(v2, true)`, whatever the first expiry was. -/
theorem Set_Set_last_wins (s s1 s2 : SimpleCache V) (key : String) (v1 v2 : Option V)
    (t1 t2 : Int) (alloc1 alloc2 : Nat) (now1 now2 now' nowDel : Int)
    (hfirst : s.Set key v1 t1 alloc1 now1 = (Except.ok (), s1))
    (hsecond : s1.Set key v2 t2 alloc2 now2 = (Except.ok (), s2)) :
    s2.m.lookup key = some ⟨v2, wrapInt64 (now2 + t2)⟩ ∧
    s2.m.keys.count key = 1 ∧
    s2.Keys.1 = s1.Keys.1 ∧
    (now' ≤ wrapInt64 (now2 + t2) → (s2.Get key now' nowDel).1 = (v2, true)) := by
  have ha1 : (s.isMemFull alloc1).1 = false :=
    (Set_ok_iff s key v1 t1 alloc1 now1).mp (by rw [hfirst])
  have ha2 : (s1.isMemFull alloc2).1 = false :=
    (Set_ok_iff s1 key v2 t2 alloc2 now2).mp (by rw [hsecond])
  rw [Set_of_not_full key v1 t1 now1 ha1] at hfirst
  rw [Set_of_not_full key v2 t2 now2 ha2] at hsecond
  have e1 : s1 = { s with m := s.m.insert key ⟨v1, wrapInt64 (now1 + t1)⟩ } :=
    (congrArg Prod.snd hfirst).symm
  have e2 : s2 = { s1 with m := s1.m.insert key ⟨v2, wrapInt64 (now2 + t2)⟩ } :=
    (congrArg Prod.snd hsecond).symm
  have hl1 : s1.m.lookup key = some ⟨v1, wrapInt64 (now1 + t1)⟩ := by
    rw [e1]; exact AList.lookup_insert s.m
  have hl2 : s2.m.lookup key = some ⟨v2, wrapInt64 (now2 + t2)⟩ := by
    rw [e2]; exact AList.lookup_insert s1.m
  refine ⟨hl2, ?_, ?_, ?_⟩
  · apply List.count_eq_one_of_mem (AList.keys_nodup s2.m)
    rw [← AList.mem_keys, ← AList.lookup_isSome, hl2]; rfl
  · unfold SimpleCache.Keys
    simp only
    rw [e2]
    simp only
    rw [length_insert_of_lookup_some _ hl1]
  · intro hle
    rw [Get_of_live nowDel hl2 hle]

/-- Key `a` set to 1 for a millisecond and, ten milliseconds later, to 2 for an
hour. -/
theorem Set_Set_last_wins_witness :
    ((NewSimpleCache 0 : SimpleCache Nat).Set "a" (some 1) 1000000 0 1793000000000000000).1
      = Except.ok () ∧
    (((NewSimpleCache 0 : SimpleCache Nat).Set "a" (some 1) 1000000 0
        1793000000000000000).2.Set "a" (some 2) 3600000000000 0 1793000000010000000).1
      = Except.ok () ∧
    ((((NewSimpleCache 0 : SimpleCache Nat).Set "a" (some 1) 1000000 0
        1793000000000000000).2.Set "a" (some 2) 3600000000000 0 1793000000010000000).2.Get "a"
        1793000000020000000 1793000000020000000).1 = (some 2, true) :=
  ⟨by decide, by decide,
   (Set_Set_last_wins (NewSimpleCache 0)
     ((NewSimpleCache 0 : SimpleCache Nat).Set "a" (some 1) 1000000 0 1793000000000000000).2
     (((NewSimpleCache 0 : SimpleCache Nat).Set "a" (some 1) 1000000 0
        1793000000000000000).2.Set "a" (some 2) 3600000000000 0 1793000000010000000).2
     "a" (some 1) (some 2) 1000000 3600000000000 0 0
     1793000000000000000 1793000000010000000 1793000000020000000 1793000000020000000
     rfl rfl).2.2.2 (by decide)⟩

theorem Get_fst_congr {s s2 : SimpleCache V} {key : String} (now nowDel : Int)
    (h : s2.m.lookup key = s.m.lookup key) :
    (s2.Get key now nowDel).1 = (s.Get key now nowDel).1 := by
  cases hl : s.m.lookup key with
  | none =>
    rw [Get_of_absent now nowDel hl, Get_of_absent now nowDel (h.trans hl)]
  | some r =>
    by_cases hle : now ≤ r.expire
    · rw [Get_of_live nowDel hl hle, Get_of_live nowDel (h.trans hl) hle]
    · rw [Get_of_expired nowDel hl (by omega), Get_of_expired nowDel (h.trans hl) (by omega)]

theorem setAll_cons_of_not_full (s : SimpleCache V) (c : SetCall V) (cs : List (SetCall V))
    (h : (s.isMemFull c.alloc).1 = false) :
    setAll s (c :: cs) =
      setAll { s with m := s.m.insert c.key ⟨c.val, wrapInt64 (c.now + c.expire)⟩ } cs := by
  simp only [setAll, Set_of_not_full c.key c.val c.expire c.now h]

theorem setAll_cons_of_full (s : SimpleCache V) (c : SetCall V) (cs : List (SetCall V))
    (h : (s.isMemFull c.alloc).1 = true) :
    setAll s (c :: cs) = (Except.error "mem is full", s) := by
  simp only [setAll, Set_of_full c.key c.val c.expire c.now h]

theorem setAll_lookup_of_not_mem (cs : List (SetCall V)) (s s2 : SimpleCache V)
    (hok : setAll s cs = (Except.ok (), s2)) (k : String)
    (hk : k ∉ cs.map SetCall.key) : s2.m.lookup k = s.m.lookup k := by
  induction cs generalizing s with
  | nil =>
    simp only [setAll, Prod.mk.injEq, true_and] at hok
    rw [hok]
  | cons c cs ih =>
    simp only [List.map_cons, List.mem_cons, not_or] at hk
    cases hf : (s.isMemFull c.alloc).1
    · rw [setAll_cons_of_not_full s c cs hf] at hok
      rw [ih _ hok hk.2]
      exact AList.lookup_insert_ne hk.1
    · rw [setAll_cons_of_full s c cs hf] at hok
      simp at hok

theorem setAll_lookup_of_mem (cs : List (SetCall V)) (s s2 : SimpleCache V)
    (hok : setAll s cs = (Except.ok (), s2)) (hnodup : (cs.map SetCall.key).Nodup)
    (c : SetCall V) (hc : c ∈ cs) :
    s2.m.lookup c.key = some ⟨c.val, wrapInt64 (c.now + c.expire)⟩ := by
  induction cs generalizing s with
  | nil => cases hc
  | cons c0 cs ih =>
    simp only [List.map_cons, List.nodup_cons] at hnodup
    cases hf : (s.isMemFull c0.alloc).1
    · rw [setAll_cons_of_not_full s c0 cs hf] at hok
      rcases List.mem_cons.mp hc with rfl | hmem
      · rw [setAll_lookup_of_not_mem cs _ s2 hok c.key hnodup.1]
        exact AList.lookup_insert s.m
      · exact ih _ hok hnodup.2 hmem
    · rw [setAll_cons_of_full s c0 cs hf] at hok
      simp at hok

/-- C15: a `Set(k, v, t)` that returns normally leaves the entry of every other key
`k'` (or its absence) as it was, so `Get(k')` at the same clock readings returns the
same result; and after a loop of `Set` calls on pairwise distinct keys that all
return normally, a `Get` of each key, not later than the expiry stamped for it,
returns the value set for it. -/
theorem Set_touches_only_its_key (s s2 : SimpleCache V) (cs : List (SetCall V))
    (hok : setAll s cs = (Except.ok (), s2))
    (hdistinct : (cs.map SetCall.key).Nodup) :
    (∀ (key : String) (val : Option V) (expire : Int) (alloc : Nat) (now : Int) (k : String)
      (now' nowDel : Int),
      (s.Set key val expire alloc now).1 = Except.ok () → k ≠ key →
      (s.Set key val expire alloc now).2.m.lookup k = s.m.lookup k ∧
      ((s.Set key val expire alloc now).2.Get k now' nowDel).1 = (s.Get k now' nowDel).1) ∧
    (∀ c ∈ cs, ∀ (now' nowDel : Int), now' ≤ wrapInt64 (c.now + c.expire) →
      (s2.Get c.key now' nowDel).1 = (c.val, true)) ∧
    (∀ k, k ∉ cs.map SetCall.key → s2.m.lookup k = s.m.lookup k) := by
  refine ⟨?_, ?_, setAll_lookup_of_not_mem cs s s2 hok⟩
  · intro key val expire alloc now k now' nowDel hset hk
    have hadm := (Set_ok_iff s key val expire alloc now).mp hset
    rw [Set_of_not_full key val expire now hadm]
    have hl : ({ s with m := s.m.insert key ⟨val, wrapInt64 (now + expire)⟩ } :
        SimpleCache V).m.lookup k = s.m.lookup k := AList.lookup_insert_ne hk
    exact ⟨hl, Get_fst_congr now' nowDel hl⟩
  · intro c hc now' nowDel hle
    rw [Get_of_live nowDel (setAll_lookup_of_mem cs s s2 hok hdistinct c hc) hle]

/-- The loop of the test on three keys, each set for an hour: key `2` reads back
as 2. -/
theorem Set_touches_only_its_key_witness :
    (setAll (⟨∅, 102400, 0⟩ : SimpleCache Nat)
        [⟨"0", some 0, 3600000000000, 10, 1793000000000000000⟩,
         ⟨"1", some 1, 3600000000000, 20, 1793000000000000001⟩,
         ⟨"2", some 2, 3600000000000, 30, 1793000000000000002⟩]).1 = Except.ok () ∧
    ((setAll (⟨∅, 102400, 0⟩ : SimpleCache Nat)
        [⟨"0", some 0, 3600000000000, 10, 1793000000000000000⟩,
         ⟨"1", some 1, 3600000000000, 20, 1793000000000000001⟩,
         ⟨"2", some 2, 3600000000000, 30, 1793000000000000002⟩]).2.Get "2"
        1793000000000000003 1793000000000000003).1 = (some 2, true) :=
  ⟨by decide,
   (Set_touches_only_its_key (⟨∅, 102400, 0⟩ : SimpleCache Nat)
     (setAll (⟨∅, 102400, 0⟩ : SimpleCache Nat)
        [⟨"0", some 0, 3600000000000, 10, 1793000000000000000⟩,
         ⟨"1", some 1, 3600000000000, 20, 1793000000000000001⟩,
         ⟨"2", some 2, 3600000000000, 30, 1793000000000000002⟩]).2
     [⟨"0", some 0, 3600000000000, 10, 1793000000000000000⟩,
      ⟨"1", some 1, 3600000000000, 20, 1793000000000000001⟩,
      ⟨"2", some 2, 3600000000000, 30, 1793000000000000002⟩]
     rfl (by decide)).2.1
     ⟨"2", some 2, 3600000000000, 30, 1793000000000000002⟩ (by simp)
     1793000000000000003 1793000000000000003 (by decide)⟩

/-- C16 as stated fails: on a fresh cache (`maxSize` 0, baseline 2000000 bytes) a
`Set` whose memory reading is again 2000000 bytes returns normally. -/
theorem C16_zero_cap_admits_at_baseline :
    (NewSimpleCache 2000000 : SimpleCache Nat).maxSize = 0 ∧
    ((NewSimpleCache 2000000 : SimpleCache Nat).Set "a" (some 1) 3600000000000 2000000
        1793000000000000000).1 = Except.ok () ∧
    ((NewSimpleCache 2000000 : SimpleCache Nat).Set "a" (some 1) 3600000000000 2000000
        1793000000000000000).2.m.lookup "a" = some ⟨some 1, 1793003600000000000⟩ := by
  decide

/-- C16, amended: on a cache whose `maxSize` is 0, a `Set` panics with `mem is full`
exactly when the memory reading differs from the baseline (`Size()` is not 0), and
returns normally when the reading equals the baseline. -/
theorem Set_zero_cap (s : SimpleCache V) (key : String) (val : Option V) (expire : Int)
    (alloc : Nat) (now : Int) (hcap : s.maxSize = 0) (halloc : alloc < 2 ^ 64)
    (hbase : s.orgMem < 2 ^ 64) :
    ((s.Set key val expire alloc now).1 = Except.error "mem is full" ↔ (s.Size alloc).1 ≠ 0) ∧
    ((s.Set key val expire alloc now).1 = Except.error "mem is full" ↔ alloc ≠ s.orgMem) ∧
    ((s.Set key val expire alloc now).1 = Except.ok () ↔ alloc = s.orgMem) := by
  have hsz : (s.Size alloc).1 ≠ 0 ↔ alloc ≠ s.orgMem := by
    unfold SimpleCache.Size wrapUint64
    simp only
    omega
  have hfull : (s.isMemFull alloc).1 = true ↔ (s.Size alloc).1 ≠ 0 := by
    rw [isMemFull_iff, hcap]
    omega
  cases hf : (s.isMemFull alloc).1
  · have h0 : ¬ (s.Size alloc).1 ≠ 0 := fun h => by
      have := hfull.mpr h
      rw [hf] at this
      cases this
    have h1 : alloc = s.orgMem := by
      by_contra hne
      exact h0 (hsz.mpr hne)
    rw [Set_of_not_full key val expire now hf]
    exact ⟨⟨fun h => by simp at h, fun h => absurd h h0⟩,
      ⟨fun h => by simp at h, fun h => absurd h1 h⟩, ⟨fun _ => h1, fun _ => rfl⟩⟩
  · have h0 : (s.Size alloc).1 ≠ 0 := hfull.mp hf
    have h1 : alloc ≠ s.orgMem := hsz.mp h0
    rw [Set_of_full key val expire now hf]
    simp [h0, h1]

/-- On a fresh cache with baseline 2000000, a `Set` at a reading of 2000100 bytes
panics. -/
theorem Set_zero_cap_witness :
    (NewSimpleCache 2000000 : SimpleCache Nat).maxSize = 0 ∧
    ((NewSimpleCache 2000000 : SimpleCache Nat).Set "a" (some 1) 3600000000000 2000100
        1793000000000000000).1 = Except.error "mem is full" :=
  ⟨by decide,
   (Set_zero_cap (NewSimpleCache 2000000 : SimpleCache Nat) "a" (some 1) 3600000000000 2000100
     1793000000000000000 (by decide) (by decide) (by decide)).2.1.mpr (by decide)⟩

/-- C17 fails on the code: `Exists` and `Keys` read the map, and `deleteExpire`
ranges over it, without taking the mutex, so `Del` (which starts with `Exists`)
and a `Get` of an expired entry (which calls `Del`) also touch the map with the
mutex not held; only `Set`, `Flush` and a `Get` that finds no expired entry keep
every map access between `Lock` and `Unlock`. -/
theorem lock_not_held_in_Exists_Keys_deleteExpire (s : SimpleCache V) (key : String)
    (now nowDel : Int) (delNow : String → Int) (alloc : Nat) :
    lockHeld false (s.ExistsEvents key now) = false ∧
    lockHeld false s.KeysEvents = false ∧
    lockHeld false (s.deleteExpireEvents now delNow) = false ∧
    lockHeld false (s.DelEvents key now) = false ∧
    (now > (index s.m key).1.expire → lockHeld false (s.GetEvents key now nowDel) = false) ∧
    (¬ now > (index s.m key).1.expire → lockHeld false (s.GetEvents key now nowDel) = true) ∧
    lockHeld false (s.SetEvents alloc) = true ∧
    lockHeld false s.FlushEvents = true := by
  refine ⟨rfl, rfl, rfl, rfl, ?_, ?_, ?_, rfl⟩
  · intro h
    simp only [SimpleCache.GetEvents, h, if_true]
    rfl
  · intro h
    simp only [SimpleCache.GetEvents, h, if_false]
    rfl
  · unfold SimpleCache.SetEvents
    split <;> rfl

theorem SetMaxMemory_snd_m (s : SimpleCache V) (size : String) :
    (s.SetMaxMemory size).2.m = s.m := by
  unfold SimpleCache.SetMaxMemory
  split
  · rfl
  · simp only
    split
    · rfl
    · split
      · rfl
      · split
        · rfl
        · split <;> rfl

theorem Del_lookup_some (s : SimpleCache V) (key : String) (now : Int) {k : String}
    {r : Result V} (h : (s.Del key now).2.m.lookup k = some r) : s.m.lookup k = some r := by
  by_cases hk : k = key
  · subst hk
    rcases Del_snd_lookup_self s k now with h2 | h2
    · rw [h2] at h; cases h
    · rw [← h2]; exact h
  · rw [← Del_lookup_of_ne s now hk]; exact h

theorem Get_lookup_some (s : SimpleCache V) (key : String) (now nowDel : Int) {k : String}
    {r : Result V} (h : (s.Get key now nowDel).2.m.lookup k = some r) :
    s.m.lookup k = some r := by
  unfold SimpleCache.Get at h
  split at h
  split at h
  · exact Del_lookup_some s key nowDel h
  · exact h

theorem foldl_Del_lookup_some (now : Int) (delNow : String → Int)
    (l : List (Sigma fun _ : String => Result V)) (acc : SimpleCache V) {k : String}
    {r : Result V}
    (h : (l.foldl (fun acc e => if now > e.2.expire then (acc.Del e.1 (delNow e.1)).2 else acc)
      acc).m.lookup k = some r) : acc.m.lookup k = some r := by
  induction l generalizing acc with
  | nil => exact h
  | cons e l ih =>
    rw [List.foldl_cons] at h
    have h2 := ih _ h
    split at h2
    · exact Del_lookup_some acc e.1 (delNow e.1) h2
    · exact h2

theorem step_lookup_some (s : SimpleCache V) (c : Call V) {k : String} {r : Result V}
    (h : (step s c).m.lookup k = some r) :
    s.m.lookup k = some r ∨
    ∃ val expire alloc now, c = Call.Set k val expire alloc now ∧
      r = ⟨val, wrapInt64 (now + expire)⟩ := by
  cases c with
  | SetMaxMemory size =>
    left
    simp only [step, SetMaxMemory_snd_m] at h
    exact h
  | Set key val expire alloc now =>
    simp only [step] at h
    cases hf : (s.isMemFull alloc).1
    · rw [Set_of_not_full key val expire now hf] at h
      by_cases hk : k = key
      · subst hk
        right
        have hl : ({ s with m := s.m.insert k ⟨val, wrapInt64 (now + expire)⟩ } :
            SimpleCache V).m.lookup k = some ⟨val, wrapInt64 (now + expire)⟩ :=
          AList.lookup_insert s.m
        rw [hl] at h
        injection h with h
        exact ⟨val, expire, alloc, now, rfl, h.symm⟩
      · left
        have hl : ({ s with m := s.m.insert key ⟨val, wrapInt64 (now + expire)⟩ } :
            SimpleCache V).m.lookup k = s.m.lookup k := AList.lookup_insert_ne hk
        rw [hl] at h
        exact h
    · rw [Set_of_full key val expire now hf] at h
      exact Or.inl h
  | Get key now nowDel => exact Or.inl (Get_lookup_some s key now nowDel h)
  | Del key now => exact Or.inl (Del_lookup_some s key now h)
  | Exists key now =>
    left
    simp only [step, Exists_snd] at h
    exact h
  | Flush =>
    simp only [step, SimpleCache.Flush] at h
    rw [AList.lookup_empty] at h
    cases h
  | Keys => exact Or.inl h
  | Size alloc => exact Or.inl h
  | deleteExpire now delNow =>
    exact Or.inl (foldl_Del_lookup_some now delNow s.m.entries s h)

theorem run_lookup_some (calls : List (Call V)) (s : SimpleCache V) {k : String}
    {r : Result V} (h : (run s calls).m.lookup k = some r) :
    s.m.lookup k = some r ∨
    ∃ val expire alloc now, Call.Set k val expire alloc now ∈ calls ∧
      r = ⟨val, wrapInt64 (now + expire)⟩ := by
  induction calls generalizing s with
  | nil => exact Or.inl h
  | cons c calls ih =>
    have h2 : (run (step s c) calls).m.lookup k = some r := h
    rcases ih (step s c) h2 with h3 | ⟨val, expire, alloc, now, hmem, hr⟩
    · rcases step_lookup_some s c h3 with h4 | ⟨val, expire, alloc, now, hc, hr⟩
      · exact Or.inl h4
      · exact Or.inr ⟨val, expire, alloc, now, by rw [hc]; exact List.mem_cons_self _ _, hr⟩
    · exact Or.inr ⟨val, expire, alloc, now, List.mem_cons_of_mem c hmem, hr⟩

/-- C18 as stated fails: a `Set` of key `a` with the largest `time.Duration` at a
clock reading of late 2026 returns normally and stores the expiry
`-7430372036854775809`, not `now + t = 11016372036854775807`. -/
theorem C18_expiry_stamp_wraps_around :
    isInt64 9223372036854775807 ∧
    isClock 1793000000000000000 ∧
    ((NewSimpleCache 0 : SimpleCache Nat).Set "a" (some 1) 9223372036854775807 0
        1793000000000000000).1 = Except.ok () ∧
    ((NewSimpleCache 0 : SimpleCache Nat).Set "a" (some 1) 9223372036854775807 0
        1793000000000000000).2.m.lookup "a" = some ⟨some 1, -7430372036854775809⟩ ∧
    (-7430372036854775809 : Int) ≠ 1793000000000000000 + 9223372036854775807 := by
  decide

/-- C18, amended: a `Set(k, v, t)` that returns normally at clock reading `now`
stores for `k` the value `v` and the expiry `now + t` reduced to `int64`, which is
`now + t` itself whenever that sum fits an `int64`; and every entry of a cache
reached from `NewSimpleCache` by any sequence of calls was stamped so by a `Set`
of that sequence. -/
theorem Set_stamps_expiry (alloc0 : Nat) (calls : List (Call V)) (k : String) (r : Result V)
    (hentry : (run (NewSimpleCache alloc0 : SimpleCache V) calls).m.lookup k = some r) :
    (∃ val expire alloc now, Call.Set k val expire alloc now ∈ calls ∧
      r.value = val ∧ r.expire = wrapInt64 (now + expire) ∧
      (isInt64 (now + expire) → r.expire = now + expire)) ∧
    (∀ (s : SimpleCache V) (key : String) (val : Option V) (expire : Int) (alloc : Nat)
      (now : Int), (s.Set key val expire alloc now).1 = Except.ok () →
      (s.Set key val expire alloc now).2.m.lookup key = some ⟨val, wrapInt64 (now + expire)⟩ ∧
      (isInt64 (now + expire) → wrapInt64 (now + expire) = now + expire)) := by
  constructor
  · rcases run_lookup_some calls _ hentry with h | ⟨val, expire, alloc, now, hmem, hr⟩
    · have : (NewSimpleCache alloc0 : SimpleCache V).m.lookup k = none := AList.lookup_empty k
      rw [this] at h
      cases h
    · refine ⟨val, expire, alloc, now, hmem, ?_, ?_, ?_⟩
      · rw [hr]
      · rw [hr]
      · intro hfit
        rw [hr]
        exact wrapInt64_of_isInt64 hfit
  · intro s key val expire alloc now hok
    have hadm := (Set_ok_iff s key val expire alloc now).mp hok
    rw [Set_of_not_full key val expire now hadm]
    exact ⟨AList.lookup_insert s.m, fun hfit => wrapInt64_of_isInt64 hfit⟩

/-- A cache configured with `100kb`, key `a` set for an hour, a sweep and a `Get`:
the entry of `a` carries the stamp of that `Set`. -/
theorem Set_stamps_expiry_witness :
    (run (NewSimpleCache 0 : SimpleCache Nat)
      [Call.SetMaxMemory "100kb", Call.Set "a" (some 1) 3600000000000 10 1793000000000000000,
       Call.deleteExpire 1793000002000000000 (fun _ => 1793000002000000000),
       Call.Get "a" 1793000003000000000 1793000003000000000]).m.lookup "a"
      = some ⟨some 1, 1793003600000000000⟩ ∧
    ∃ val expire alloc now,
      Call.Set "a" val expire alloc now ∈
        [Call.SetMaxMemory "100kb", Call.Set "a" (some 1) 3600000000000 10 1793000000000000000,
         Call.deleteExpire 1793000002000000000 (fun _ => 1793000002000000000),
         Call.Get "a" 1793000003000000000 1793000003000000000] ∧
      (⟨some 1, 1793003600000000000⟩ : Result Nat).value = val ∧
      (⟨some 1, 1793003600000000000⟩ : Result Nat).expire = wrapInt64 (now + expire) ∧
      (isInt64 (now + expire) →
        (⟨some 1, 1793003600000000000⟩ : Result Nat).expire = now + expire) :=
  ⟨by decide,
   (Set_stamps_expiry 0
     [Call.SetMaxMemory "100kb", Call.Set "a" (some 1) 3600000000000 10 1793000000000000000,
      Call.deleteExpire 1793000002000000000 (fun _ => 1793000002000000000),
      Call.Get "a" 1793000003000000000 1793000003000000000]
     "a" ⟨some 1, 1793003600000000000⟩ (by decide)).1⟩

/-- C19: on the same state and at the same clock reading, the found flag of
`Get(k)` is the result of `Exists(k)`, for a present key and for an absent one
(whose zero entry has expiry 0); and a `Get` that reports not found returns nil. -/
theorem Get_found_eq_Exists (s : SimpleCache V) (key : String) (now nowDel : Int) :
    (s.Get key now nowDel).1.2 = (s.Exists key now).1 ∧
    ((s.Get key now nowDel).1.2 = false → (s.Get key now nowDel).1.1 = none) := by
  cases hl : s.m.lookup key with
  | none =>
    rw [Get_of_absent now nowDel hl, Exists_of_absent now hl]
    exact ⟨rfl, fun _ => rfl⟩
  | some r =>
    by_cases hle : now ≤ r.expire
    · rw [Get_of_live nowDel hl hle, Exists_of_present now hl]
      refine ⟨?_, fun h => ?_⟩
      · simp [hle]
      · simp at h
    · rw [Get_of_expired nowDel hl (by omega), Exists_of_present now hl]
      refine ⟨?_, fun _ => rfl⟩
      simp [hle]

theorem foldl_Del_keeps_live (now : Int) (delNow : String → Int) (key : String)
    (r : Result V) (l : List (Sigma fun _ : String => Result V))
    (hl : ∀ e ∈ l, e.1 = key → now ≤ e.2.expire) (acc : SimpleCache V)
    (hacc : acc.m.lookup key = some r) :
    (l.foldl (fun acc e => if now > e.2.expire then (acc.Del e.1 (delNow e.1)).2 else acc)
      acc).m.lookup key = some r := by
  induction l generalizing acc with
  | nil => exact hacc
  | cons e l ih =>
    rw [List.foldl_cons]
    apply ih (fun e' he' => hl e' (List.mem_cons_of_mem e he'))
    split
    · rename_i hgt
      have hne : key ≠ e.1 := by
        intro heq
        have := hl e (List.mem_cons_self e l) heq.symm
        omega
      rw [Del_lookup_of_ne acc (delNow e.1) hne]
      exact hacc
    · exact hacc

/-- C20: a key that is in the map and not expired at the sweep's clock reading
(`now <= expireAt`) keeps its entry, value and expiry, through `deleteExpire`,
whatever the clock readings inside the sweep; `Get(k)` at `now` returns
`(value, true)` after the sweep as before it. -/
theorem deleteExpire_keeps_live (s : SimpleCache V) (key : String) (r : Result V)
    (now : Int) (delNow : String → Int) (nowDel : Int)
    (hpresent : s.m.lookup key = some r) (hlive : now ≤ r.expire) :
    (s.deleteExpire now delNow).m.lookup key = some r ∧
    (s.Get key now nowDel).1 = (r.value, true) ∧
    ((s.deleteExpire now delNow).Get key now nowDel).1 = (s.Get key now nowDel).1 := by
  have hkeep : (s.deleteExpire now delNow).m.lookup key = some r := by
    unfold SimpleCache.deleteExpire
    apply foldl_Del_keeps_live now delNow key r s.m.entries _ s hpresent
    intro e he hk
    have h1 : e.2 ∈ s.m.lookup e.1 := AList.mem_lookup_iff.mpr he
    have h2 : s.m.lookup e.1 = some e.2 := h1
    rw [hk, hpresent] at h2
    injection h2 with h2
    rw [← h2]
    exact hlive
  refine ⟨hkeep, ?_, ?_⟩
  · rw [Get_of_live nowDel hpresent hlive]
  · exact Get_fst_congr now nowDel (hkeep.trans hpresent.symm)

/-- A sweep at reading 3000000 over a cache holding `a`, live until 9000000, and
`b`, expired at 1000000, with clock readings inside the sweep that run backwards
for `b`: `a` keeps its entry. -/
theorem deleteExpire_keeps_live_witness :
    ((AList.singleton "a" ⟨some 1, 9000000⟩).insert "b" ⟨some 2, 1000000⟩ :
        GoMap Nat).lookup "a" = some ⟨some 1, 9000000⟩ ∧
    (3000000 : Int) ≤ 9000000 ∧
    ((⟨(AList.singleton "a" ⟨some 1, 9000000⟩).insert "b" ⟨some 2, 1000000⟩, 102400, 0⟩ :
        SimpleCache Nat).deleteExpire 3000000 (fun _ => 500000)).m.lookup "a"
      = some ⟨some 1, 9000000⟩ ∧
    (((⟨(AList.singleton "a" ⟨some 1, 9000000⟩).insert "b" ⟨some 2, 1000000⟩, 102400, 0⟩ :
        SimpleCache Nat).deleteExpire 3000000 (fun _ => 500000)).Get "a" 3000000 3000000).1
      = (some 1, true) :=
  ⟨by decide, by decide,
   (deleteExpire_keeps_live _ "a" ⟨some 1, 9000000⟩ 3000000 (fun _ => 500000) 3000000
     (by decide) (by decide)).1,
   by
     rw [(deleteExpire_keeps_live
       (⟨(AList.singleton "a" ⟨some 1, 9000000⟩).insert "b" ⟨some 2, 1000000⟩, 102400, 0⟩ :
         SimpleCache Nat) "a" ⟨some 1, 9000000⟩ 3000000 (fun _ => 500000) 3000000
       (by decide) (by decide)).2.2]
     decide⟩

end simple_cache
